import Mathlib

/-!
Verification development for the docker-logs repository (Rehtt/docker-logs).

The development shallowly embeds the two subsystems of the repository:

* `logfile.go` — the rotating, size-bounded log writer (`LogFile` with
  `Write`, `Close`, `newFile`), modelled over pure byte lists
  (`List Char`, one `Char` per byte, `'\n'` the line terminator);

* `main.go` — the container lifecycle monitor (`run`), the per-container
  streaming task (`handleWithContext`), the resume-cursor computation
  (`addNanosecond` over RFC3339Nano timestamps) and the backward tail
  scan (`ReadLastLine`).

File contents on disk are byte lists; filesystem and I/O failures that a
claim depends on are injected through explicit failure oracles.
-/

namespace DockerLogs

/-! ## The rotating log writer (`logfile.go`) -/

/-- State of a `LogFile` writer (struct `LogFile` in `logfile.go`).
`rotated` lists the logical (uncompressed) contents of the rotated-out
files in index order, oldest first; `current` is the on-disk content of
the canonical log file; `fOpen` models `l.f != nil`; `size` is the
`size` field, `limit` the `limitSize` field, `closed` the `closed`
flag. -/
structure LogFile where
  rotated : List (List Char)
  current : List Char
  fOpen : Bool
  size : Nat
  limit : Nat
  closed : Bool
deriving DecidableEq, Repr

/-- Prepend a byte onto the first piece of a split (helper for
`splitAfter`). -/
def consHead (b : Char) : List (List Char) → List (List Char)
  | [] => [[b]]
  | s :: ss => (b :: s) :: ss

/-- `bytes.SplitAfterSeq(p, []byte("\n"))`: split after every occurrence
of the separator; every piece except the last keeps its trailing
separator, and the last piece (possibly empty) holds the remainder. -/
def splitAfter (sep : Char) : List Char → List (List Char)
  | [] => [[]]
  | b :: rest =>
    if b = sep then [sep] :: splitAfter sep rest
    else consHead b (splitAfter sep rest)

/-- `LogFile.newFile` (logfile.go:110-206), happy path, at the level of
file bytes.  With an open file: close it, move it to the next rotation
index (its bytes are preserved — rename copies them verbatim, gzip is
lossless), open a fresh empty canonical file and set `size` from its
length (0).  With no open file: open the canonical file in append mode
and set `size` to its current length (`stat`). -/
def LogFile.newFile (l : LogFile) : LogFile :=
  if l.fOpen then
    { l with rotated := l.rotated ++ [l.current], current := [], size := 0 }
  else
    { l with fOpen := true, size := l.current.length }

/-- The per-segment loop of `LogFile.Write` (logfile.go:55-86): for each
piece of the payload split after `'\n'`, write an over-limit piece
immediately without rotating, otherwise rotate first whenever the piece
would push `size` past `limit`, then write the piece and update
`size`. -/
def writeSegs (l : LogFile) : List (List Char) → Nat → LogFile × Nat × Option String
  | [], n => (l, n, none)
  | data :: rest, n =>
    if data.length > l.limit then
      writeSegs { l with current := l.current ++ data, size := l.size + data.length }
        rest (n + data.length)
    else if l.size + data.length > l.limit then
      let l2 := l.newFile
      writeSegs { l2 with current := l2.current ++ data, size := l2.size + data.length }
        rest (n + data.length)
    else
      writeSegs { l with current := l.current ++ data, size := l.size + data.length }
        rest (n + data.length)

/-- `LogFile.Write` (logfile.go:30-88), happy path for the I/O: a closed
writer fails with the "closed" error and writes nothing; a writer with
no open file lazily opens it; a payload that fits under the limit is
written whole; otherwise the payload is split after each newline and
written segment by segment through `writeSegs`.  Returns the new state,
the byte count written, and the error. -/
def LogFile.write (l : LogFile) (p : List Char) : LogFile × Nat × Option String :=
  if l.closed then (l, 0, some "log file is closed")
  else
    let l1 := if l.fOpen then l else l.newFile
    if l1.size + p.length ≤ l1.limit then
      ({ l1 with current := l1.current ++ p, size := l1.size + p.length }, p.length, none)
    else
      writeSegs l1 (splitAfter '\n' p) 0

/-- `LogFile.Close` (logfile.go:90-108).  `closeFails` injects the
outcome of the underlying `l.f.Close()` call.  A closed writer returns
success immediately.  Otherwise the `closed` flag is set first; if the
handle close fails the error is returned with `f` left non-nil, else
the handle is released. -/
def LogFile.closeW (l : LogFile) (closeFails : Bool) : LogFile × Option String :=
  if l.closed then (l, none)
  else
    let l1 : LogFile := { l with closed := true }
    if l.fOpen then
      if closeFails then (l1, some "close log file error")
      else ({ l1 with fOpen := false }, none)
    else (l1, none)

/-- All bytes held by the writer's files: rotated files in index order,
then the active file. -/
def allBytes (l : LogFile) : List Char := l.rotated.flatten ++ l.current

/-- Write a list of payloads in order, keeping only the states. -/
def writeAll (l : LogFile) (ps : List (List Char)) : LogFile :=
  ps.foldl (fun st p => (st.write p).1) l

/-- `Distributes segs c fs c'` says: appending the segments `segs` one
by one, starting with an active file holding `c`, rotating at the
writer's discretion but never inside a segment, fills the complete
files `fs` (in order) and leaves `c'` in the active file.  Every
segment lands contiguously inside exactly one file. -/
inductive Distributes : List (List Char) → List Char → List (List Char) → List Char → Prop
  | nil (c : List Char) : Distributes [] c [] c
  | keep (s : List Char) (segs : List (List Char)) (c : List Char)
      (fs : List (List Char)) (c' : List Char)
      (h : Distributes segs (c ++ s) fs c') : Distributes (s :: segs) c fs c'
  | rot (s : List Char) (segs : List (List Char)) (c : List Char)
      (fs : List (List Char)) (c' : List Char)
      (h : Distributes segs s fs c') : Distributes (s :: segs) c (c :: fs) c'

/-! ### Basic lemmas about `splitAfter` and `Distributes` -/

theorem consHead_ne_nil (b : Char) (L : List (List Char)) : consHead b L ≠ [] := by
  cases L <;> simp [consHead]

theorem splitAfter_ne_nil (sep : Char) (l : List Char) : splitAfter sep l ≠ [] := by
  cases l with
  | nil => simp [splitAfter]
  | cons b rest =>
    by_cases h : b = sep
    · simp [splitAfter, h]
    · simp only [splitAfter, if_neg h]
      exact consHead_ne_nil _ _

theorem join_consHead (b : Char) (L : List (List Char)) (h : L ≠ []) :
    (consHead b L).flatten = b :: L.flatten := by
  cases L with
  | nil => exact absurd rfl h
  | cons s ss => simp [consHead]

theorem splitAfter_join (sep : Char) (l : List Char) :
    (splitAfter sep l).flatten = l := by
  induction l with
  | nil => simp [splitAfter]
  | cons b rest ih =>
    by_cases h : b = sep
    · simp [splitAfter, h, ih]
    · simp only [splitAfter, if_neg h]
      rw [join_consHead _ _ (splitAfter_ne_nil sep rest), ih]

theorem Distributes.flatten_eq {segs : List (List Char)} {c : List Char}
    {fs : List (List Char)} {c' : List Char} (h : Distributes segs c fs c') :
    fs.flatten ++ c' = c ++ segs.flatten := by
  induction h with
  | nil c => simp
  | keep s segs c fs c' h ih => simp only [List.flatten_cons] at *; rw [ih]; simp
  | rot s segs c fs c' h ih =>
    simp only [List.flatten_cons, List.append_assoc] at *
    rw [ih]

theorem distributes_no_rot (segs : List (List Char)) (c : List Char) :
    Distributes segs c [] (c ++ segs.flatten) := by
  induction segs generalizing c with
  | nil => simpa using Distributes.nil c
  | cons s rest ih =>
    refine Distributes.keep s rest c [] _ ?_
    have := ih (c ++ s)
    simpa [List.append_assoc] using this

/-! ### Invariance lemmas for `writeSegs` and `write` -/

theorem newFile_closed (l : LogFile) : l.newFile.closed = l.closed := by
  unfold LogFile.newFile; split <;> rfl

theorem newFile_limit (l : LogFile) : l.newFile.limit = l.limit := by
  unfold LogFile.newFile; split <;> rfl

theorem newFile_fOpen (l : LogFile) (h : l.fOpen = true) : l.newFile.fOpen = true := by
  unfold LogFile.newFile; rw [h]; simp

theorem newFile_of_open (l : LogFile) (h : l.fOpen = true) :
    l.newFile = { l with rotated := l.rotated ++ [l.current], current := [], size := 0 } := by
  unfold LogFile.newFile; rw [h]; simp

theorem writeSegs_closed (segs : List (List Char)) (l : LogFile) (n : Nat) :
    (writeSegs l segs n).1.closed = l.closed := by
  induction segs generalizing l n with
  | nil => rfl
  | cons data rest ih =>
    unfold writeSegs
    split
    · rw [ih]
    · split
      · rw [ih]; exact newFile_closed l
      · rw [ih]

theorem writeSegs_limit (segs : List (List Char)) (l : LogFile) (n : Nat) :
    (writeSegs l segs n).1.limit = l.limit := by
  induction segs generalizing l n with
  | nil => rfl
  | cons data rest ih =>
    unfold writeSegs
    split
    · rw [ih]
    · split
      · rw [ih]; exact newFile_limit l
      · rw [ih]

theorem writeSegs_fOpen (segs : List (List Char)) (l : LogFile) (n : Nat)
    (h : l.fOpen = true) : (writeSegs l segs n).1.fOpen = true := by
  induction segs generalizing l n with
  | nil => exact h
  | cons data rest ih =>
    unfold writeSegs
    split
    · exact ih _ _ h
    · split
      · exact ih _ _ (newFile_fOpen l h)
      · exact ih _ _ h

/-- The segment loop only appends whole segments: the rotated files grow
by a block `fs` into which the segments distribute without ever being
split. -/
theorem writeSegs_distributes (segs : List (List Char)) (l : LogFile) (n : Nat)
    (h : l.fOpen = true) :
    ∃ fs, (writeSegs l segs n).1.rotated = l.rotated ++ fs ∧
      Distributes segs l.current fs (writeSegs l segs n).1.current := by
  induction segs generalizing l n with
  | nil => exact ⟨[], by simp [writeSegs], Distributes.nil l.current⟩
  | cons data rest ih =>
    unfold writeSegs
    by_cases hbig : data.length > l.limit
    · rw [if_pos hbig]
      obtain ⟨fs, h1, h2⟩ := ih { l with current := l.current ++ data, size := l.size + data.length } (n + data.length) h
      exact ⟨fs, h1, Distributes.keep data rest l.current fs _ h2⟩
    · rw [if_neg hbig]
      by_cases hrot : l.size + data.length > l.limit
      · rw [if_pos hrot]
        rw [newFile_of_open l h]
        obtain ⟨fs, h1, h2⟩ := ih { l with rotated := l.rotated ++ [l.current], current := [] ++ data, size := 0 + data.length } (n + data.length) h
        refine ⟨l.current :: fs, ?_, ?_⟩
        · simp only at h1; rw [h1]; simp
        · exact Distributes.rot data rest l.current fs _ (by simpa using h2)
      · rw [if_neg hrot]
        obtain ⟨fs, h1, h2⟩ := ih { l with current := l.current ++ data, size := l.size + data.length } (n + data.length) h
        exact ⟨fs, h1, Distributes.keep data rest l.current fs _ h2⟩

/-- After the segment loop on a nonempty segment list, either the size is
back under the limit or some segment was itself over the limit. -/
theorem writeSegs_size_le (segs : List (List Char)) (l : LogFile) (n : Nat)
    (h : l.fOpen = true) (hne : segs ≠ []) :
    (writeSegs l segs n).1.size ≤ l.limit ∨ ∃ s ∈ segs, s.length > l.limit := by
  induction segs generalizing l n with
  | nil => exact absurd rfl hne
  | cons data rest ih =>
    unfold writeSegs
    by_cases hbig : data.length > l.limit
    · rw [if_pos hbig]
      cases rest with
      | nil =>
        exact Or.inr ⟨data, by simp, hbig⟩
      | cons r rs =>
        rcases ih { l with current := l.current ++ data, size := l.size + data.length } (n + data.length) h (by simp) with h1 | ⟨s, hs, hlen⟩
        · exact Or.inl h1
        · exact Or.inr ⟨s, List.mem_cons_of_mem _ hs, hlen⟩
    · rw [if_neg hbig]
      by_cases hrot : l.size + data.length > l.limit
      · rw [if_pos hrot]
        rw [newFile_of_open l h]
        cases rest with
        | nil =>
          simp only [writeSegs]
          omega
        | cons r rs =>
          rcases ih { l with rotated := l.rotated ++ [l.current], current := [] ++ data, size := 0 + data.length } (n + data.length) h (by simp) with h1 | ⟨s, hs, hlen⟩
          · exact Or.inl h1
          · exact Or.inr ⟨s, List.mem_cons_of_mem _ hs, hlen⟩
      · rw [if_neg hrot]
        cases rest with
        | nil =>
          simp only [writeSegs]
          omega
        | cons r rs =>
          rcases ih { l with current := l.current ++ data, size := l.size + data.length } (n + data.length) h (by simp) with h1 | ⟨s, hs, hlen⟩
          · exact Or.inl h1
          · exact Or.inr ⟨s, List.mem_cons_of_mem _ hs, hlen⟩

/-- The segment loop keeps `size` equal to the open file's length. -/
theorem writeSegs_sizeOk (segs : List (List Char)) (l : LogFile) (n : Nat)
    (h : l.size = l.current.length) :
    (writeSegs l segs n).1.size = (writeSegs l segs n).1.current.length := by
  induction segs generalizing l n with
  | nil => exact h
  | cons data rest ih =>
    unfold writeSegs
    split
    · exact ih _ _ (by simp [h])
    · split
      · refine ih _ _ ?_
        simp only [LogFile.newFile]
        split <;> simp
      · exact ih _ _ (by simp [h])

theorem newFile_of_no_handle (l : LogFile) (h : l.fOpen = false) :
    l.newFile = { l with fOpen := true, size := l.current.length } := by
  unfold LogFile.newFile; rw [h]; simp

theorem write_closed_eq (l : LogFile) (p : List Char) :
    (l.write p).1.closed = l.closed := by
  unfold LogFile.write
  split
  · rfl
  · by_cases hf : l.fOpen = true
    · simp only [hf, if_pos]
      split
      · rfl
      · exact writeSegs_closed _ _ _
    · have hf' : l.fOpen = false := by revert hf; cases l.fOpen <;> simp
      simp only [hf', Bool.false_eq_true, if_false]
      split
      · exact newFile_closed l
      · rw [writeSegs_closed]; exact newFile_closed l

/-- One successful `Write` appends `p` while distributing its segments
whole into the files. -/
theorem write_distributes (l : LogFile) (p : List Char) (h : l.closed = false) :
    ∃ fs, (l.write p).1.rotated = l.rotated ++ fs ∧
      Distributes (splitAfter '\n' p) l.current fs (l.write p).1.current := by
  unfold LogFile.write
  rw [h]
  simp only [Bool.false_eq_true, if_false]
  by_cases hf : l.fOpen = true
  · simp only [hf, if_pos]
    split
    · refine ⟨[], by simp, ?_⟩
      have := distributes_no_rot (splitAfter '\n' p) l.current
      rwa [splitAfter_join] at this
    · exact writeSegs_distributes _ _ _ hf
  · have hf' : l.fOpen = false := by revert hf; cases l.fOpen <;> simp
    simp only [hf', Bool.false_eq_true, if_false]
    rw [newFile_of_no_handle l hf']
    split
    · refine ⟨[], by simp, ?_⟩
      have := distributes_no_rot (splitAfter '\n' p) l.current
      rwa [splitAfter_join] at this
    · exact writeSegs_distributes _ _ _ rfl

theorem write_allBytes (l : LogFile) (p : List Char) (h : l.closed = false) :
    allBytes (l.write p).1 = allBytes l ++ p := by
  obtain ⟨fs, h1, h2⟩ := write_distributes l p h
  have h3 := h2.flatten_eq
  rw [splitAfter_join] at h3
  unfold allBytes
  rw [h1, List.flatten_append, List.append_assoc, h3, List.append_assoc]

theorem writeAll_allBytes (l : LogFile) (ps : List (List Char)) (h : l.closed = false) :
    allBytes (writeAll l ps) = allBytes l ++ ps.flatten := by
  induction ps generalizing l with
  | nil => simp [writeAll]
  | cons p rest ih =>
    have hc : (l.write p).1.closed = false := by rw [write_closed_eq]; exact h
    have : writeAll l (p :: rest) = writeAll (l.write p).1 rest := rfl
    rw [this, ih _ hc, write_allBytes l p h]
    simp

theorem write_sizeOk (l : LogFile) (p : List Char) (h2 : l.size = l.current.length) :
    (l.write p).1.size = (l.write p).1.current.length := by
  unfold LogFile.write
  split
  · exact h2
  · by_cases hf : l.fOpen = true
    · simp only [hf, if_pos]
      split
      · simpa using h2
      · exact writeSegs_sizeOk _ _ _ h2
    · have hf' : l.fOpen = false := by revert hf; cases l.fOpen <;> simp
      simp only [hf', Bool.false_eq_true, if_false]
      rw [newFile_of_no_handle l hf']
      split
      · simp
      · exact writeSegs_sizeOk _ _ _ (by simp)

theorem write_size_le (l : LogFile) (p : List Char) (h : l.closed = false) :
    (l.write p).1.size ≤ l.limit ∨ ∃ s ∈ splitAfter '\n' p, s.length > l.limit := by
  unfold LogFile.write
  rw [h]
  simp only [Bool.false_eq_true, if_false]
  by_cases hf : l.fOpen = true
  · simp only [hf, if_pos]
    split
    · next hle => left; simpa using hle
    · exact writeSegs_size_le _ _ _ hf (splitAfter_ne_nil _ _)
  · have hf' : l.fOpen = false := by revert hf; cases l.fOpen <;> simp
    simp only [hf', Bool.false_eq_true, if_false]
    rw [newFile_of_no_handle l hf']
    split
    · next hle => left; simpa using hle
    · exact writeSegs_size_le _ _ _ rfl (splitAfter_ne_nil _ _)

/-! ### Claim theorems for the writer -/

/-- C2: a payload written through `LogFile.Write` is split into segments
after each line terminator, the segments are appended in order, each
lands whole inside a single file (`Distributes` forbids splitting a
segment across a rotation), and the concatenation of the rotated files
in index order followed by the active file reproduces the byte stream
of all successful writes — both for a single write and for any sequence
of writes. -/
theorem write_line_safety (l : LogFile) (p : List Char) (ps : List (List Char))
    (h : l.closed = false) :
    (∃ fs, (l.write p).1.rotated = l.rotated ++ fs ∧
      Distributes (splitAfter '\n' p) l.current fs (l.write p).1.current) ∧
    allBytes (l.write p).1 = allBytes l ++ p ∧
    allBytes (writeAll l ps) = allBytes l ++ ps.flatten := by
  exact ⟨write_distributes l p h, write_allBytes l p h, writeAll_allBytes l ps h⟩

/-- Witness for `write_line_safety` at a concrete writer and payloads. -/
theorem write_line_safety_witness :
    (∃ fs, ((LogFile.mk [] [] true 0 5 false).write "ab\ncd\nef\n".toList).1.rotated = [] ++ fs ∧
      Distributes (splitAfter '\n' "ab\ncd\nef\n".toList) [] fs
        ((LogFile.mk [] [] true 0 5 false).write "ab\ncd\nef\n".toList).1.current) ∧
    allBytes ((LogFile.mk [] [] true 0 5 false).write "ab\ncd\nef\n".toList).1 =
      allBytes (LogFile.mk [] [] true 0 5 false) ++ "ab\ncd\nef\n".toList ∧
    allBytes (writeAll (LogFile.mk [] [] true 0 5 false) ["xy\n".toList]) =
      allBytes (LogFile.mk [] [] true 0 5 false) ++ ["xy\n".toList].flatten :=
  write_line_safety (LogFile.mk [] [] true 0 5 false) "ab\ncd\nef\n".toList
    ["xy\n".toList] rfl

/-- C3: a successful `Write` leaves `size` at or below `limit` unless
some single segment (one line) of the payload itself exceeds the limit,
and `size` always equals the byte length of the currently open file. -/
theorem write_size_invariant (l : LogFile) (p : List Char)
    (h : l.closed = false) (h2 : l.size = l.current.length) :
    ((l.write p).1.size ≤ l.limit ∨ ∃ s ∈ splitAfter '\n' p, s.length > l.limit) ∧
    (l.write p).1.size = (l.write p).1.current.length := by
  exact ⟨write_size_le l p h, write_sizeOk l p h2⟩

/-- Witness for `write_size_invariant` at a concrete writer. -/
theorem write_size_invariant_witness :
    (((LogFile.mk [] [] true 0 5 false).write "ab\ncd\nef\n".toList).1.size ≤ 5 ∨
      ∃ s ∈ splitAfter '\n' "ab\ncd\nef\n".toList, s.length > 5) ∧
    ((LogFile.mk [] [] true 0 5 false).write "ab\ncd\nef\n".toList).1.size =
      ((LogFile.mk [] [] true 0 5 false).write "ab\ncd\nef\n".toList).1.current.length :=
  write_size_invariant (LogFile.mk [] [] true 0 5 false) "ab\ncd\nef\n".toList rfl rfl

/-- C8: `Close` is idempotent — the first (successful) call releases the
handle and marks the writer closed, every later `Write` fails with the
"closed" error having written nothing, and every later `Close` is a
no-op returning success. -/
theorem close_idempotent (l : LogFile) (p : List Char) :
    (l.closed = false → l.fOpen = true →
      l.closeW false = ({ l with closed := true, fOpen := false }, none)) ∧
    (l.closed = true → l.write p = (l, 0, some "log file is closed")) ∧
    (l.closed = true → ∀ b, l.closeW b = (l, none)) := by
  refine ⟨fun h1 h2 => ?_, fun h1 => ?_, fun h1 b => ?_⟩
  · simp [LogFile.closeW, h1, h2]
  · simp [LogFile.write, h1]
  · simp [LogFile.closeW, h1]

/-- Witness for `close_idempotent` at a concrete writer. -/
theorem close_idempotent_witness :
    ((LogFile.mk [] [] true 3 5 false).closeW false =
      ({ LogFile.mk [] [] true 3 5 false with closed := true, fOpen := false }, none)) ∧
    ((LogFile.mk [] [] false 3 5 true).write "x".toList =
      (LogFile.mk [] [] false 3 5 true, 0, some "log file is closed")) ∧
    (∀ b, (LogFile.mk [] [] false 3 5 true).closeW b = (LogFile.mk [] [] false 3 5 true, none)) := by
  refine ⟨?_, ?_, ?_⟩
  · exact (close_idempotent (LogFile.mk [] [] true 3 5 false) "x".toList).1 rfl rfl
  · exact (close_idempotent (LogFile.mk [] [] false 3 5 true) "x".toList).2.1 rfl
  · exact (close_idempotent (LogFile.mk [] [] false 3 5 true) "x".toList).2.2 rfl

/-- C10: if the underlying handle close fails on the first `Close`, the
error is returned but the writer is still permanently marked closed:
later writes fail with the "closed" error and later closes return
success without retrying the handle close. -/
theorem close_error_still_closes (l : LogFile) (p : List Char)
    (h1 : l.closed = false) (h2 : l.fOpen = true) :
    (l.closeW true).2 = some "close log file error" ∧
    (l.closeW true).1.closed = true ∧
    (l.closeW true).1.write p = ((l.closeW true).1, 0, some "log file is closed") ∧
    (∀ b, (l.closeW true).1.closeW b = ((l.closeW true).1, none)) := by
  have hcl : l.closeW true = ({ l with closed := true }, some "close log file error") := by
    simp [LogFile.closeW, h1, h2]
  refine ⟨by rw [hcl], by rw [hcl], ?_, fun b => ?_⟩
  · rw [hcl]; simp [LogFile.write]
  · rw [hcl]; simp [LogFile.closeW]

/-- Witness for `close_error_still_closes` at a concrete writer. -/
theorem close_error_still_closes_witness :
    ((LogFile.mk [] [] true 3 5 false).closeW true).2 = some "close log file error" ∧
    ((LogFile.mk [] [] true 3 5 false).closeW true).1.closed = true ∧
    ((LogFile.mk [] [] true 3 5 false).closeW true).1.write "x".toList =
      (((LogFile.mk [] [] true 3 5 false).closeW true).1, 0, some "log file is closed") ∧
    (∀ b, ((LogFile.mk [] [] true 3 5 false).closeW true).1.closeW b =
      (((LogFile.mk [] [] true 3 5 false).closeW true).1, none)) :=
  close_error_still_closes (LogFile.mk [] [] true 3 5 false) "x".toList rfl rfl

/-! ## The lifecycle monitor and stream tasks (`main.go`), one container name

The monitor loop of `run` (main.go:151-220) and the streaming task
`handleWithContext` (main.go:48-115) are modelled, for a single
monitored name, as an interleaved transition system.  A task's program
counter follows the goroutine launched at main.go:208-215:

* `started`   — goroutine running, `NewLogFile` not yet returned;
* `streaming` — the `RotatingLogWriter` is open (between `NewLogFile`
  succeeding and `handleWithContext` returning, whose deferred call
  closes it);
* `writerClosed` — `handleWithContext` has returned (its `defer`
  closed the writer; this stage also covers a failed `NewLogFile`,
  which never opens a writer) but `wg.Done` has not yet fired;
* `taskDone`  — `info.wg.Done()` fired (the completion signal); the
  deferred `info.run.Store(false)` may still be pending (`clearRun`).

The monitor's observation of the container list is environmental
nondeterminism: every transition guarded on an observation may fire
with any observed ID (or absence). `wg.Wait()` appears as the guard
`pc = taskDone` on the `finishStop`/`finishReplace` transitions. -/

/-- Program counter of one streaming task goroutine. -/
inductive TaskPc
  | started
  | streaming
  | writerClosed
  | taskDone
deriving DecidableEq, Repr

/-- One launched task together with the fields of its `containerInfo`
entry that the task itself touches (`run` flag) or the monitor sets
(`cancelled` models `info.cancel()` having been called). -/
structure Task where
  pc : TaskPc
  cid : Nat
  running : Bool
  cancelled : Bool
deriving DecidableEq, Repr

/-- Where the monitor loop stands for this name: between poll decisions
(`idle`), blocked in `wg.Wait()` before deleting a stopped container's
entry (`waitStop`), or blocked in `wg.Wait()` before replacing an entry
(`waitReplace`, carrying the newly observed ID). -/
inductive MonPc
  | idle
  | waitStop (i : Nat)
  | waitReplace (i : Nat) (nid : Nat)
deriving DecidableEq, Repr

/-- Global state for one monitored name: every task ever launched (in
launch order), the index the `containerInfos` entry refers to (if any),
and the monitor's program counter. -/
structure Sys where
  tasks : List Task
  tracked : Option Nat
  mon : MonPc
deriving DecidableEq, Repr

/-- Lookup of the i-th launched task. -/
def getTask : List Task → Nat → Option Task
  | [], _ => none
  | t :: _, 0 => some t
  | _ :: ts, i + 1 => getTask ts i

/-- Update of the i-th launched task. -/
def modifyTask : List Task → Nat → (Task → Task) → List Task
  | [], _, _ => []
  | t :: ts, 0, f => f t :: ts
  | t :: ts, i + 1, f => t :: modifyTask ts i f

/-- A task holds an open `RotatingLogWriter` exactly while it is
between `NewLogFile` and the deferred `logfile.Close()`. -/
def holdsWriter (t : Task) : Bool := t.pc = TaskPc.streaming

/-- Initial state: no tasks launched, no tracked entry. -/
def initSys : Sys := ⟨[], none, MonPc.idle⟩

/-- The interleaved small-step relation for one monitored name.

Task steps (from `handleWithContext` and the goroutine wrapper at
main.go:208-215): `openWriter` (a successful `NewLogFile`),
`closeWriter` (`handleWithContext` returns — the stream ended, a write
failed, the context was cancelled, or `NewLogFile`/`ContainerLogs`
failed before streaming — and its `defer` closes the writer),
`signalDone` (`info.wg.Done()`), `clearRun` (`info.run.Store(false)`,
deferred after `wg.Done`).

Monitor steps (from `run`, main.go:172-217): `beginStop`/`finishStop`
for the not-running branch (cancel, `wg.Wait()`, delete);
`beginReplace`/`finishReplace` for a changed ID or a not-running flag
(cancel, `wg.Wait()`, then store a fresh entry and launch a new task);
`firstSpawn` when no entry exists for an observed container. -/
inductive Step : Sys → Sys → Prop
  | openWriter (s : Sys) (i : Nat) (t : Task)
      (hg : getTask s.tasks i = some t) (hpc : t.pc = TaskPc.started) :
      Step s { s with tasks := modifyTask s.tasks i (fun u => { u with pc := TaskPc.streaming }) }
  | closeWriter (s : Sys) (i : Nat) (t : Task)
      (hg : getTask s.tasks i = some t)
      (hpc : t.pc = TaskPc.started ∨ t.pc = TaskPc.streaming) :
      Step s { s with tasks := modifyTask s.tasks i (fun u => { u with pc := TaskPc.writerClosed }) }
  | signalDone (s : Sys) (i : Nat) (t : Task)
      (hg : getTask s.tasks i = some t) (hpc : t.pc = TaskPc.writerClosed) :
      Step s { s with tasks := modifyTask s.tasks i (fun u => { u with pc := TaskPc.taskDone }) }
  | clearRun (s : Sys) (i : Nat) (t : Task)
      (hg : getTask s.tasks i = some t) (hpc : t.pc = TaskPc.taskDone) :
      Step s { s with tasks := modifyTask s.tasks i (fun u => { u with running := false }) }
  | beginStop (s : Sys) (i : Nat)
      (hm : s.mon = MonPc.idle) (ht : s.tracked = some i) :
      Step s { s with mon := MonPc.waitStop i,
                      tasks := modifyTask s.tasks i (fun u => { u with cancelled := true }) }
  | finishStop (s : Sys) (i : Nat) (t : Task)
      (hm : s.mon = MonPc.waitStop i) (hg : getTask s.tasks i = some t)
      (hpc : t.pc = TaskPc.taskDone) :
      Step s { s with mon := MonPc.idle, tracked := none }
  | beginReplace (s : Sys) (i : Nat) (t : Task) (nid : Nat)
      (hm : s.mon = MonPc.idle) (ht : s.tracked = some i)
      (hg : getTask s.tasks i = some t)
      (hobs : t.cid ≠ nid ∨ t.running = false) :
      Step s { s with mon := MonPc.waitReplace i nid,
                      tasks := modifyTask s.tasks i (fun u => { u with cancelled := true }) }
  | finishReplace (s : Sys) (i : Nat) (t : Task) (nid : Nat)
      (hm : s.mon = MonPc.waitReplace i nid) (hg : getTask s.tasks i = some t)
      (hpc : t.pc = TaskPc.taskDone) :
      Step s { s with mon := MonPc.idle,
                      tasks := s.tasks ++ [⟨TaskPc.started, nid, true, false⟩],
                      tracked := some s.tasks.length }
  | firstSpawn (s : Sys) (nid : Nat)
      (hm : s.mon = MonPc.idle) (ht : s.tracked = none) :
      Step s { s with tasks := s.tasks ++ [⟨TaskPc.started, nid, true, false⟩],
                      tracked := some s.tasks.length }

/-- States reachable from the initial state. -/
inductive Reachable : Sys → Prop
  | init : Reachable initSys
  | step (s s' : Sys) (h : Reachable s) (hs : Step s s') : Reachable s'

/-! ### Lemmas about task lookup and update -/

theorem getTask_modifyTask (ts : List Task) (i j : Nat) (f : Task → Task) :
    getTask (modifyTask ts i f) j =
      if j = i then (getTask ts i).map f else getTask ts j := by
  induction ts generalizing i j with
  | nil => simp [modifyTask, getTask]
  | cons t ts ih =>
    cases i with
    | zero =>
      cases j with
      | zero => simp [modifyTask, getTask]
      | succ j => simp [modifyTask, getTask]
    | succ i =>
      cases j with
      | zero => simp [modifyTask, getTask]
      | succ j =>
        simp only [modifyTask, getTask, ih, Nat.succ_eq_add_one]
        by_cases hj : j = i
        · simp [hj]
        · simp [hj, fun h => hj (Nat.add_right_cancel h)]

theorem getTask_lt_length (ts : List Task) (j : Nat) (t : Task)
    (h : getTask ts j = some t) : j < ts.length := by
  induction ts generalizing j with
  | nil => simp [getTask] at h
  | cons u ts ih =>
    cases j with
    | zero => simp
    | succ j => simpa using ih j (by simpa [getTask] using h)

theorem getTask_append_lt (ts ts2 : List Task) (j : Nat) (h : j < ts.length) :
    getTask (ts ++ ts2) j = getTask ts j := by
  induction ts generalizing j with
  | nil => exact absurd h (by simp)
  | cons u ts ih =>
    cases j with
    | zero => rfl
    | succ j => simpa [getTask] using ih j (by simpa using h)

theorem getTask_append_self (ts : List Task) (t : Task) :
    getTask (ts ++ [t]) ts.length = some t := by
  induction ts with
  | nil => rfl
  | cons u ts ih => simpa [getTask] using ih

theorem getTask_append_cases (ts : List Task) (u : Task) (j : Nat) (t : Task)
    (h : getTask (ts ++ [u]) j = some t) :
    (j < ts.length ∧ getTask ts j = some t) ∨ (j = ts.length ∧ t = u) := by
  have hlen := getTask_lt_length _ _ _ h
  simp only [List.length_append, List.length_cons, List.length_nil] at hlen
  by_cases hj : j < ts.length
  · rw [getTask_append_lt _ _ _ hj] at h
    exact Or.inl ⟨hj, h⟩
  · have hje : j = ts.length := by omega
    subst hje
    rw [getTask_append_self] at h
    exact Or.inr ⟨rfl, by injection h.symm⟩

/-! ### The single-writer invariant -/

/-- Inductive invariant: any task that has not yet fired its completion
signal is the task the tracked entry refers to, and while the monitor
waits on a task the tracked entry still refers to that task. -/
def Inv (s : Sys) : Prop :=
  (∀ i t, getTask s.tasks i = some t → t.pc ≠ TaskPc.taskDone → s.tracked = some i) ∧
  (∀ i, s.mon = MonPc.waitStop i → s.tracked = some i) ∧
  (∀ i nid, s.mon = MonPc.waitReplace i nid → s.tracked = some i)

theorem inv_init : Inv initSys := by
  refine ⟨fun i t h => ?_, fun i h => ?_, fun i nid h => ?_⟩ <;>
    simp [initSys, getTask] at h

theorem inv_step (s s' : Sys) (hs : Step s s') (h : Inv s) : Inv s' := by
  obtain ⟨h1, h2, h3⟩ := h
  cases hs with
  | openWriter i t hg hpc =>
    refine ⟨fun j t' hg' hpc' => ?_, fun j hm' => h2 j hm', fun j nid' hm' => h3 j nid' hm'⟩
    show s.tracked = some j
    rw [getTask_modifyTask] at hg'
    by_cases hj : j = i
    · subst hj
      exact h1 j t hg (by simp [hpc])
    · rw [if_neg hj] at hg'
      exact h1 j t' hg' hpc'
  | closeWriter i t hg hpc =>
    refine ⟨fun j t' hg' hpc' => ?_, fun j hm' => h2 j hm', fun j nid' hm' => h3 j nid' hm'⟩
    show s.tracked = some j
    rw [getTask_modifyTask] at hg'
    by_cases hj : j = i
    · subst hj
      refine h1 j t hg ?_
      rcases hpc with hpc | hpc <;> simp [hpc]
    · rw [if_neg hj] at hg'
      exact h1 j t' hg' hpc'
  | signalDone i t hg hpc =>
    refine ⟨fun j t' hg' hpc' => ?_, fun j hm' => h2 j hm', fun j nid' hm' => h3 j nid' hm'⟩
    show s.tracked = some j
    rw [getTask_modifyTask] at hg'
    by_cases hj : j = i
    · subst hj
      rw [if_pos rfl, hg] at hg'
      simp only [Option.map_some', Option.some.injEq] at hg'
      have hdone : t'.pc = TaskPc.taskDone := by rw [← hg']
      exact absurd hdone hpc'
    · rw [if_neg hj] at hg'
      exact h1 j t' hg' hpc'
  | clearRun i t hg hpc =>
    refine ⟨fun j t' hg' hpc' => ?_, fun j hm' => h2 j hm', fun j nid' hm' => h3 j nid' hm'⟩
    show s.tracked = some j
    rw [getTask_modifyTask] at hg'
    by_cases hj : j = i
    · subst hj
      rw [if_pos rfl, hg] at hg'
      simp only [Option.map_some', Option.some.injEq] at hg'
      have hdone : t'.pc = TaskPc.taskDone := by rw [← hg']; exact hpc
      exact absurd hdone hpc'
    · rw [if_neg hj] at hg'
      exact h1 j t' hg' hpc'
  | beginStop i hm ht =>
    refine ⟨fun j t' hg' hpc' => ?_, fun j hm' => ?_, fun j nid' hm' => ?_⟩
    · show s.tracked = some j
      rw [getTask_modifyTask] at hg'
      by_cases hj : j = i
      · subst hj; exact ht
      · rw [if_neg hj] at hg'
        exact h1 j t' hg' hpc'
    · have hx : MonPc.waitStop i = MonPc.waitStop j := hm'
      injection hx with hij
      subst hij
      exact ht
    · have hx : MonPc.waitStop i = MonPc.waitReplace j nid' := hm'
      simp at hx
  | finishStop i t hm hg hpc =>
    refine ⟨fun j t' hg' hpc' => ?_, fun j hm' => ?_, fun j nid' hm' => ?_⟩
    · have hgj : getTask s.tasks j = some t' := hg'
      have htj := h1 j t' hgj hpc'
      have hti := h2 i hm
      rw [htj] at hti
      injection hti with hij
      subst hij
      rw [hgj] at hg
      injection hg with hte
      exact absurd (hte ▸ hpc) hpc'
    · have hx : MonPc.idle = MonPc.waitStop j := hm'
      simp at hx
    · have hx : MonPc.idle = MonPc.waitReplace j nid' := hm'
      simp at hx
  | beginReplace i t nid hm ht hg hobs =>
    refine ⟨fun j t' hg' hpc' => ?_, fun j hm' => ?_, fun j nid' hm' => ?_⟩
    · show s.tracked = some j
      rw [getTask_modifyTask] at hg'
      by_cases hj : j = i
      · subst hj; exact ht
      · rw [if_neg hj] at hg'
        exact h1 j t' hg' hpc'
    · have hx : MonPc.waitReplace i nid = MonPc.waitStop j := hm'
      simp at hx
    · have hx : MonPc.waitReplace i nid = MonPc.waitReplace j nid' := hm'
      injection hx with hij _
      subst hij
      exact ht
  | finishReplace i t nid hm hg hpc =>
    refine ⟨fun j t' hg' hpc' => ?_, fun j hm' => ?_, fun j nid' hm' => ?_⟩
    · have hgj : getTask (s.tasks ++ [⟨TaskPc.started, nid, true, false⟩]) j = some t' := hg'
      rcases getTask_append_cases _ _ _ _ hgj with ⟨hlt, hgl⟩ | ⟨hje, hte⟩
      · have htj := h1 j t' hgl hpc'
        have hti := h3 i nid hm
        rw [htj] at hti
        injection hti with hij
        subst hij
        rw [hgl] at hg
        injection hg with hte
        exact absurd (hte ▸ hpc) hpc'
      · subst hje
        rfl
    · have hx : MonPc.idle = MonPc.waitStop j := hm'
      simp at hx
    · have hx : MonPc.idle = MonPc.waitReplace j nid' := hm'
      simp at hx
  | firstSpawn nid hm ht =>
    refine ⟨fun j t' hg' hpc' => ?_, fun j hm' => ?_, fun j nid' hm' => ?_⟩
    · have hgj : getTask (s.tasks ++ [⟨TaskPc.started, nid, true, false⟩]) j = some t' := hg'
      rcases getTask_append_cases _ _ _ _ hgj with ⟨hlt, hgl⟩ | ⟨hje, hte⟩
      · have htj := h1 j t' hgl hpc'
        rw [ht] at htj
        simp at htj
      · subst hje
        rfl
    · have hx : s.mon = MonPc.waitStop j := hm'
      rw [hm] at hx
      simp at hx
    · have hx : s.mon = MonPc.waitReplace j nid' := hm'
      rw [hm] at hx
      simp at hx

theorem reachable_inv (s : Sys) (h : Reachable s) : Inv s := by
  induction h with
  | init => exact inv_init
  | step s s' h hs ih => exact inv_step s s' hs ih

/-- C1: in every reachable state of the lifecycle model, at most one
task holds an open `RotatingLogWriter` for the monitored name (the
monitor's `cancel` + `wg.Wait()` precede every relaunch, and a task
only fires its completion signal after its deferred close), and a task
that has signalled completion no longer holds a writer. -/
theorem single_writer_exclusive (s : Sys) (h : Reachable s) :
    (∀ i j ti tj, getTask s.tasks i = some ti → getTask s.tasks j = some tj →
      holdsWriter ti = true → holdsWriter tj = true → i = j) ∧
    (∀ i t, getTask s.tasks i = some t → t.pc = TaskPc.taskDone → holdsWriter t = false) := by
  obtain ⟨h1, -, -⟩ := reachable_inv s h
  refine ⟨fun i j ti tj hgi hgj hwi hwj => ?_, fun i t hg hpc => ?_⟩
  · have hpi : ti.pc = TaskPc.streaming := by simpa [holdsWriter] using hwi
    have hpj : tj.pc = TaskPc.streaming := by simpa [holdsWriter] using hwj
    have hi := h1 i ti hgi (by simp [hpi])
    have hj := h1 j tj hgj (by simp [hpj])
    rw [hi] at hj
    injection hj
  · simp [holdsWriter, hpc]

/-- Witness for `single_writer_exclusive` at a concrete reachable state
holding exactly one streaming task. -/
theorem single_writer_exclusive_witness :
    (∀ i j ti tj,
      getTask (Sys.mk [Task.mk TaskPc.streaming 7 true false] (some 0) MonPc.idle).tasks i = some ti →
      getTask (Sys.mk [Task.mk TaskPc.streaming 7 true false] (some 0) MonPc.idle).tasks j = some tj →
      holdsWriter ti = true → holdsWriter tj = true → i = j) ∧
    (∀ i t,
      getTask (Sys.mk [Task.mk TaskPc.streaming 7 true false] (some 0) MonPc.idle).tasks i = some t →
      t.pc = TaskPc.taskDone → holdsWriter t = false) := by
  have h0 : Step initSys (Sys.mk [Task.mk TaskPc.started 7 true false] (some 0) MonPc.idle) :=
    Step.firstSpawn initSys 7 rfl rfl
  have hr1 : Reachable (Sys.mk [Task.mk TaskPc.started 7 true false] (some 0) MonPc.idle) :=
    Reachable.step _ _ Reachable.init h0
  have h2 : Step (Sys.mk [Task.mk TaskPc.started 7 true false] (some 0) MonPc.idle)
      (Sys.mk [Task.mk TaskPc.streaming 7 true false] (some 0) MonPc.idle) :=
    Step.openWriter _ 0 (Task.mk TaskPc.started 7 true false) rfl rfl
  exact single_writer_exclusive _ (Reachable.step _ _ hr1 h2)

/-! ## `ReadLastLine` (main.go:235-293)

The backward tail scan is modelled verbatim over the file content as a
byte list: chunks of 4096 bytes are read from the end, at most
1048576 bytes in total; inside a chunk the scan runs from the highest
index down, skipping a `'\n'` only when it is the very last byte of the
file, and on finding a `'\n'` returns everything after it in the
current chunk followed by the previously accumulated chunks. -/

/-- Inner scan of one chunk (main.go:271-283).  `j+1` encodes "examine
index `j` next"; `firstChunk` is `offset == size`, `readPos` the chunk's
absolute start, `size` the file size, `result` the accumulated later
chunks.  A terminator is skipped only when it is the very last byte of
the file during the first chunk; a found terminator returns everything
after it in this chunk, followed by the accumulated chunks. -/
def scanBufAux (buf : List Char) (firstChunk : Bool) (readPos size : Nat)
    (result : List Char) : Nat → Option (List Char)
  | 0 => none
  | j + 1 =>
    if firstChunk = true ∧ readPos + j = size - 1 ∧ buf.getD j ' ' = '\n' then
      scanBufAux buf firstChunk readPos size result j
    else if buf.getD j ' ' = '\n' then some (buf.drop (j + 1) ++ result)
    else scanBufAux buf firstChunk readPos size result j

/-- Scan a whole chunk from its last byte backward. -/
def scanBuf (buf : List Char) (firstChunk : Bool) (readPos size : Nat)
    (result : List Char) : Option (List Char) :=
  scanBufAux buf firstChunk readPos size result buf.length

/-- The chunked backward read loop of `ReadLastLine` (main.go:255-289):
the chunk size is `min 4096 offset` (`readSize`) and the chunk starts at
`offset - min 4096 offset` (`readPos`); a chunk without a terminator is
prepended to `result` and the loop continues until the file start or
until 1048576 bytes have been read. -/
def rllLoop (content : List Char) (size : Nat) (offset totalRead : Nat)
    (result : List Char) : List Char :=
  if _hguard : 0 < offset ∧ totalRead < 1048576 then
    match scanBuf ((content.drop (offset - min 4096 offset)).take (min 4096 offset))
        (decide (offset = size)) (offset - min 4096 offset) size result with
    | some out => out
    | none =>
      rllLoop content size (offset - min 4096 offset) (totalRead + min 4096 offset)
        (((content.drop (offset - min 4096 offset)).take (min 4096 offset)) ++ result)
  else result
termination_by offset
decreasing_by omega

/-- `ReadLastLine` (main.go:235-293), happy path for the I/O: the empty
file yields the empty string, otherwise the chunked backward scan runs
from the end of the file. -/
def readLastLine (content : List Char) : List Char :=
  if content.length = 0 then []
  else rllLoop content content.length content.length 0 []

theorem scanBufAux_none (buf : List Char) (fc : Bool) (readPos size : Nat)
    (result : List Char) (hnl : ∀ c ∈ buf, c ≠ '\n') :
    ∀ j, scanBufAux buf fc readPos size result j = none := by
  intro j
  induction j with
  | zero => rfl
  | succ j ih =>
    have hc : buf.getD j ' ' ≠ '\n' := by
      by_cases hj : j < buf.length
      · rw [List.getD_eq_getElem buf ' ' hj]
        exact hnl _ (List.getElem_mem hj)
      · rw [List.getD_eq_default buf ' ' (by omega)]
        decide
    have h1 : ¬(fc = true ∧ readPos + j = size - 1 ∧ buf.getD j ' ' = '\n') :=
      fun hcon => hc hcon.2.2
    unfold scanBufAux
    rw [if_neg h1, if_neg hc]
    exact ih

theorem scanBuf_none (buf : List Char) (fc : Bool) (readPos size : Nat)
    (result : List Char) (hnl : ∀ c ∈ buf, c ≠ '\n') :
    scanBuf buf fc readPos size result = none :=
  scanBufAux_none buf fc readPos size result hnl buf.length

theorem rllLoop_no_nl (content : List Char) (hnl : ∀ c ∈ content, c ≠ '\n')
    (offset : Nat) :
    ∀ totalRead, totalRead + offset = content.length → totalRead ≤ 1048576 →
      (4096 ∣ totalRead ∨ offset = 0) →
      rllLoop content content.length offset totalRead (content.drop offset) =
        content.drop (content.length - min content.length 1048576) := by
  induction offset using Nat.strong_induction_on with
  | _ offset ih =>
    intro totalRead hsum hle hdiv
    rw [rllLoop]
    by_cases hg : 0 < offset ∧ totalRead < 1048576
    · rw [dif_pos hg]
      have hbuf : ∀ c ∈ (content.drop (offset - min 4096 offset)).take (min 4096 offset),
          c ≠ '\n' := by
        intro c hc
        exact hnl c ((List.drop_sublist _ _).mem ((List.take_sublist _ _).mem hc))
      rw [scanBuf_none _ _ _ _ _ hbuf]
      have hres : (content.drop (offset - min 4096 offset)).take (min 4096 offset) ++
          content.drop offset = content.drop (offset - min 4096 offset) := by
        have hdd : (content.drop (offset - min 4096 offset)).drop (min 4096 offset) =
            content.drop offset := by
          rw [List.drop_drop]
          congr 1
          omega
        conv_rhs => rw [← List.take_append_drop (min 4096 offset) (content.drop (offset - min 4096 offset))]
        rw [hdd]
      rw [hres]
      exact ih (offset - min 4096 offset) (by omega) (totalRead + min 4096 offset)
        (by omega) (by omega) (by omega)
    · rw [dif_neg hg]
      have hoff : offset = content.length - min content.length 1048576 := by omega
      rw [hoff]

/-- `ReadLastLine` on a file with no line terminator anywhere: the scan
finds nothing and returns the trailing window of the file — the whole
file if it is at most 1 MiB, else exactly its last 1048576 bytes. -/
theorem readLastLine_no_nl (content : List Char) (hnl : ∀ c ∈ content, c ≠ '\n') :
    readLastLine content = content.drop (content.length - min content.length 1048576) := by
  unfold readLastLine
  by_cases h0 : content.length = 0
  · rw [if_pos h0]
    have hc : content = [] := List.length_eq_zero.mp h0
    subst hc
    simp
  · rw [if_neg h0]
    have h := rllLoop_no_nl content hnl content.length 0 (by omega) (by omega)
      (Or.inl ⟨0, rfl⟩)
    rwa [List.drop_length] at h

/-- C5 counterexample: for the file `"a\nb\nc\n"` the claim expects
`"c"`, but `ReadLastLine` returns `buf[i+1:]` — everything after the
found terminator, which still contains the file's trailing terminator —
so it returns `"c\n"`. -/
theorem readLastLine_trailing_counterexample :
    readLastLine "a\nb\nc\n".toList ≠ "c".toList := by
  show readLastLine ['a', '\n', 'b', '\n', 'c', '\n'] ≠ ['c']
  rw [readLastLine, rllLoop]
  simp [scanBuf, scanBufAux]

/-- C5 amended: `ReadLastLine` returns the content after the last line
terminator that is not the file's final byte, which still includes the
trailing terminator when the file ends with one (`"a\nb\nc\n"` gives
`"c\n"`, not `"c"`); without a trailing terminator it returns the last
line exactly (`"a\nb\nc"` gives `"c"`); the empty file gives the empty
string; and a file with no terminator in the bounded window yields the
best-effort trailing window (the whole file up to 1 MiB, else the last
1048576 bytes) without error. -/
theorem readLastLine_amended :
    readLastLine "a\nb\nc\n".toList = "c\n".toList ∧
    readLastLine "a\nb\nc".toList = "c".toList ∧
    readLastLine "".toList = "".toList ∧
    (∀ content : List Char, (∀ c ∈ content, c ≠ '\n') →
      readLastLine content = content.drop (content.length - min content.length 1048576)) := by
  refine ⟨?_, ?_, rfl, readLastLine_no_nl⟩
  · show readLastLine ['a', '\n', 'b', '\n', 'c', '\n'] = ['c', '\n']
    rw [readLastLine, rllLoop]
    simp [scanBuf, scanBufAux]
  · show readLastLine ['a', '\n', 'b', '\n', 'c'] = ['c']
    rw [readLastLine, rllLoop]
    simp [scanBuf, scanBufAux]

/-- Witness for `readLastLine_amended` instantiating its bounded-window
clause at a concrete terminator-free file. -/
theorem readLastLine_amended_witness :
    readLastLine "xyz".toList = "xyz".toList := by
  have h := readLastLine_amended.2.2.2 "xyz".toList (by decide)
  simpa using h

/-! ## Compression during rotation (`logfile.go:146-185`)

The compression branch of `newFile` is modelled as a straight-line
program over the two files it touches, with an oracle `fails` injecting
the outcome of each fallible operation.  The source checks the errors
of `os.OpenFile` (create the `.gz`), `os.Open` (the original) and
`io.Copy`, removing the partial `.gz` and surfacing the error on any of
them; the errors of the deferred `oldLog.Close()`, `g.Close()` (the
gzip flush) and `f.Close()` are discarded, after which `os.Remove` on
the original runs unconditionally. -/

/-- The fallible operations in the compression branch, in program
order. -/
inductive GzOp
  | createGz
  | openOrig
  | copyData
  | closeOrig
  | closeGz
  | closeOut
  | removeOrig
deriving DecidableEq, Repr

/-- Resulting on-disk state: does the original log file still exist,
and does a (possibly partial or unflushed) `.gz` file exist? -/
structure GzFS where
  origExists : Bool
  gzExists : Bool
deriving DecidableEq, Repr

/-- The compression branch of `LogFile.newFile` (logfile.go:146-179)
starting from an existing original and no `.gz`.  Returns the final
on-disk state and the error surfaced to the caller. -/
def compressRotate (fails : GzOp → Bool) : GzFS × Option String :=
  if fails GzOp.createGz then
    -- os.OpenFile failed: nothing was created, the closure's error is
    -- returned after os.Remove(newName) removes nothing.
    (⟨true, false⟩, some "create log file error")
  else if fails GzOp.openOrig then
    -- the .gz was created; deferred f.Close runs (error ignored), the
    -- closure's error triggers os.Remove(newName).
    (⟨true, false⟩, some "open log file error")
  else if fails GzOp.copyData then
    -- partial .gz written; deferred closes run (errors ignored), the
    -- closure's error triggers os.Remove(newName).
    (⟨true, false⟩, some "write log file error")
  else
    -- the closure returned nil; the deferred oldLog.Close, g.Close and
    -- f.Close run and their outcomes (fails .closeOrig, .closeGz,
    -- .closeOut) are discarded, then os.Remove(l.logfile) runs.
    if fails GzOp.removeOrig then (⟨true, true⟩, some "remove log file error")
    else (⟨false, true⟩, none)

/-- C7 counterexample: the claim says any failure during compression
deletes the partial `.gz`, surfaces the failure and never deletes the
original; but when the deferred `g.Close()` — the gzip flush, where
buffered compressed bytes reach the disk — fails, its error is
discarded: no error is surfaced, the unflushed `.gz` is kept, and the
original log file is deleted anyway. -/
theorem compressRotate_close_counterexample :
    ¬(∀ fails : GzOp → Bool, (∃ op, fails op = true) →
      (compressRotate fails).2.isSome = true ∧
      (compressRotate fails).1.origExists = true) := by
  intro h
  have hc := h (fun op => decide (op = GzOp.closeGz)) ⟨GzOp.closeGz, by decide⟩
  revert hc
  decide

/-- C7 amended: for the three checked operations — creating the `.gz`,
opening the original, and the stream copy — any failure is surfaced,
the partially written `.gz` is removed, and the original is kept; when
all operations succeed the `.gz` exists and the original is deleted
only then; a failing final `os.Remove` of the original is surfaced with
both files kept.  Errors of the deferred closes (including the gzip
flush) are discarded, so such a failure is not surfaced and the
original is still deleted. -/
theorem compressRotate_amended (fails : GzOp → Bool)
    (hchecked : fails GzOp.createGz = true ∨ fails GzOp.openOrig = true ∨
      fails GzOp.copyData = true) :
    (compressRotate fails).2.isSome = true ∧
    (compressRotate fails).1.origExists = true ∧
    (compressRotate fails).1.gzExists = false := by
  unfold compressRotate
  rcases hchecked with h | h | h
  · rw [if_pos h]
    exact ⟨rfl, rfl, rfl⟩
  · by_cases h1 : fails GzOp.createGz = true
    · rw [if_pos h1]
      exact ⟨rfl, rfl, rfl⟩
    · rw [if_neg h1, if_pos h]
      exact ⟨rfl, rfl, rfl⟩
  · by_cases h1 : fails GzOp.createGz = true
    · rw [if_pos h1]
      exact ⟨rfl, rfl, rfl⟩
    · by_cases h2 : fails GzOp.openOrig = true
      · rw [if_neg h1, if_pos h2]
        exact ⟨rfl, rfl, rfl⟩
      · rw [if_neg h1, if_neg h2, if_pos h]
        exact ⟨rfl, rfl, rfl⟩

/-- Witness for `compressRotate_amended` at a copy failure. -/
theorem compressRotate_amended_witness :
    (compressRotate (fun op => decide (op = GzOp.copyData))).2.isSome = true ∧
    (compressRotate (fun op => decide (op = GzOp.copyData))).1.origExists = true ∧
    (compressRotate (fun op => decide (op = GzOp.copyData))).1.gzExists = false :=
  compressRotate_amended (fun op => decide (op = GzOp.copyData)) (by decide)

/-! ## The poll cycle of `run` (main.go:151-220)

One iteration of the monitor loop, at the level of the tracked-entry
map (`containerInfos`): list the containers (the listing outcome is a
parameter), build the name-to-ID map of running monitored containers,
then reconcile every monitored name — removing entries whose container
is gone (cancel, wait, delete) and re-storing entries for new,
restarted (changed ID) or no-longer-running tasks.  The returned number
is the sleep in seconds before the next cycle: 5 after a listing
failure (main.go:155), 10 otherwise (main.go:219). -/

/-- The tracked fields of a `containerInfo` entry the reconciliation
reads or writes. -/
structure CInfo where
  id : Nat
  running : Bool
deriving DecidableEq, Repr

/-- Lookup in an association list (models map/`sync.Map` reads). -/
def lookupA {α : Type} : List (List Char × α) → List Char → Option α
  | [], _ => none
  | (k2, v) :: rest, k => if k2 = k then some v else lookupA rest k

/-- Store into an association list, replacing an existing binding
(models map assignment and `sync.Map.Store`). -/
def insertA {α : Type} (m : List (List Char × α)) (k : List Char) (v : α) :
    List (List Char × α) :=
  if (lookupA m k).isSome then
    m.map (fun kv => if kv.1 = k then (k, v) else kv)
  else m ++ [(k, v)]

/-- Delete from an association list (models `sync.Map.Delete`). -/
def removeA {α : Type} (m : List (List Char × α)) (k : List Char) :
    List (List Char × α) :=
  m.filter (fun kv => decide (kv.1 ≠ k))

/-- `strings.TrimPrefix(cname, "/")`. -/
def trimSlash : List Char → List Char
  | '/' :: r => r
  | s => s

/-- The inner loop over one container's name aliases (main.go:162-168):
the first alias (after trimming the leading slash) contained in the
monitored-name list wins. -/
def firstMatch (names : List (List Char)) : List (List Char) → Option (List Char)
  | [] => none
  | c :: rest =>
    if trimSlash c ∈ names then some (trimSlash c) else firstMatch names rest

/-- Build `runningContainers` (main.go:160-169): fold the listed
containers, later entries overwriting earlier ones for the same name. -/
def buildRunning (names : List (List Char)) (infos : List (Nat × List (List Char))) :
    List (List Char × Nat) :=
  infos.foldl (fun m info =>
    match firstMatch names info.2 with
    | some nm => insertA m nm info.1
    | none => m) []

/-- Reconcile one monitored name against the observed map
(main.go:172-217): absent container removes the entry (after cancel and
wait); a present container with no entry, a changed ID, or a
not-running task stores a fresh running entry with the new ID;
otherwise the entry is untouched. -/
def reconcileName (running : List (List Char × Nat))
    (tr : List (List Char × CInfo)) (name : List Char) :
    List (List Char × CInfo) :=
  match lookupA running name with
  | none => removeA tr name
  | some nid =>
    match lookupA tr name with
    | none => insertA tr name ⟨nid, true⟩
    | some info =>
      if info.id ≠ nid ∨ info.running = false then insertA tr name ⟨nid, true⟩
      else tr

/-- One poll cycle of `run` (main.go:151-220): on a listing failure the
tracked state is untouched and the loop sleeps 5 seconds; on success
the names are reconciled and the loop sleeps 10 seconds. -/
def pollCycle (tracked : List (List Char × CInfo)) (names : List (List Char))
    (listing : Option (List (Nat × List (List Char)))) :
    List (List Char × CInfo) × Nat :=
  match listing with
  | none => (tracked, 5)
  | some infos => (names.foldl (reconcileName (buildRunning names infos)) tracked, 10)

/-- C9: a failed container-listing call leaves every tracked entry (and
hence its running task) untouched and retries after the shorter 5
second backoff instead of the normal 10 — in contrast with a successful
listing that reports no containers, which tears the tracked entries
down. -/
theorem list_failure_preserves_state (tracked : List (List Char × CInfo))
    (names : List (List Char)) :
    pollCycle tracked names none = (tracked, 5) ∧
    (5 : Nat) ≠ 10 ∧
    pollCycle [("web".toList, CInfo.mk 1 true)] ["web".toList] (some []) =
      ([], 10) := by
  refine ⟨rfl, by decide, ?_⟩
  rfl

/-! ## Rotation index scanning (`logfile.go:117-145`)

`newFile` names the rotated file by scanning the directory for siblings
`<base>.<N>` / `<base>.<N>.gz`, taking the highest positive `N` parsed
from the suffix, and using `maxIndex+1`.  File names are byte lists;
`gconv.Int` is modelled on the digit strings the scan feeds it. -/

/-- The decimal digit character for `n < 10`. -/
def digitChar (n : Nat) : Char := Char.ofNat (48 + n)

/-- Is `c` a decimal digit? -/
def isDigitCh (c : Char) : Bool := decide ('0' ≤ c ∧ c ≤ '9')

/-- Value of a digit string, most significant first. -/
def charsToNat (s : List Char) : Nat := s.foldl (fun a c => a * 10 + (c.toNat - 48)) 0

/-- `gconv.Int` as the rotation scan uses it: a nonempty all-digit
string converts to its decimal value, anything else (including names
with stray characters) converts to 0, which the scan ignores. -/
def gconvInt (s : List Char) : Nat :=
  if s ≠ [] ∧ s.all isDigitCh then charsToNat s else 0

/-- Decimal rendering of a natural number (`fmt.Sprintf("%d", n)`). -/
def natDigits (n : Nat) : List Char :=
  if n < 10 then [digitChar n]
  else natDigits (n / 10) ++ [digitChar (n % 10)]
termination_by n
decreasing_by omega

/-- `strings.CutPrefix`. -/
def cutPrefix : List Char → List Char → Option (List Char)
  | [], s => some s
  | _ :: _, [] => none
  | p :: ps, c :: cs => if p = c then cutPrefix ps cs else none

/-- `strings.TrimSuffix`. -/
def trimSuffix (suf s : List Char) : List Char :=
  if suf <:+ s then s.take (s.length - suf.length) else s

/-- The index the directory scan (logfile.go:131-137) parses out of one
file name: cut `<base>.`, trim a `.gz`, convert with `gconv.Int`; names
that do not carry the prefix contribute 0 (ignored, like non-positive
parses). -/
def parsedRotIdx (base : List Char) (fname : List Char) : Nat :=
  match cutPrefix (base ++ ['.']) fname with
  | some suffix => gconvInt (trimSuffix ".gz".toList suffix)
  | none => 0

/-- One directory entry's contribution to `maxIndex`
(logfile.go:134-136). -/
def rotStep (base : List Char) (acc : Nat) (f : List Char) : Nat :=
  if parsedRotIdx base f > 0 then max acc (parsedRotIdx base f) else acc

/-- `maxIndex` after walking the directory (logfile.go:118-142). -/
def maxRotIndex (base : List Char) (files : List (List Char)) : Nat :=
  files.foldl (rotStep base) 0

/-- The name given to the rotated file (logfile.go:145-149). -/
def mkRotName (base : List Char) (compression : Bool) (idx : Nat) : List Char :=
  base ++ ['.'] ++ natDigits idx ++ (if compression then ".gz".toList else [])

/-- Effect of one rotation on the directory listing: the closed file
moves to (or is compressed into) the name with index `maxIndex+1`; all
existing siblings keep their names. -/
def rotateDir (base : List Char) (compression : Bool) (files : List (List Char)) :
    List (List Char) :=
  files ++ [mkRotName base compression (maxRotIndex base files + 1)]

/-- `N` consecutive rotations. -/
def rotateN (base : List Char) (compression : Bool) (files : List (List Char)) :
    Nat → List (List Char)
  | 0 => files
  | n + 1 => rotateDir base compression (rotateN base compression files n)

theorem digitChar_toNat (m : Nat) (h : m < 10) : (digitChar m).toNat = 48 + m := by
  interval_cases m <;> decide

theorem isDigitCh_digitChar (m : Nat) (h : m < 10) : isDigitCh (digitChar m) = true := by
  interval_cases m <;> decide

theorem natDigits_ne_nil (n : Nat) : natDigits n ≠ [] := by
  rw [natDigits]
  split
  · simp
  · simp

theorem natDigits_all_digits (n : Nat) : ∀ c ∈ natDigits n, isDigitCh c = true := by
  induction n using Nat.strong_induction_on with
  | _ n ih =>
    rw [natDigits]
    split
    · next h =>
      intro c hc
      rw [List.mem_singleton] at hc
      subst hc
      exact isDigitCh_digitChar n h
    · next h =>
      intro c hc
      rw [List.mem_append] at hc
      rcases hc with hc | hc
      · exact ih (n / 10) (by omega) c hc
      · rw [List.mem_singleton] at hc
        subst hc
        exact isDigitCh_digitChar (n % 10) (Nat.mod_lt _ (by omega))

theorem charsToNat_append_digit (s : List Char) (c : Char) :
    charsToNat (s ++ [c]) = charsToNat s * 10 + (c.toNat - 48) := by
  unfold charsToNat
  rw [List.foldl_append]
  rfl

theorem charsToNat_natDigits (n : Nat) : charsToNat (natDigits n) = n := by
  induction n using Nat.strong_induction_on with
  | _ n ih =>
    rw [natDigits]
    split
    · next h =>
      show charsToNat [digitChar n] = n
      unfold charsToNat
      simp [digitChar_toNat n h]
    · next h =>
      rw [charsToNat_append_digit, ih (n / 10) (by omega),
        digitChar_toNat (n % 10) (Nat.mod_lt _ (by omega))]
      omega

theorem gconvInt_natDigits (n : Nat) : gconvInt (natDigits n) = n := by
  unfold gconvInt
  rw [if_pos ⟨natDigits_ne_nil n, List.all_eq_true.mpr (natDigits_all_digits n)⟩]
  exact charsToNat_natDigits n

theorem cutPrefix_append (p r : List Char) : cutPrefix p (p ++ r) = some r := by
  induction p with
  | nil => rfl
  | cons c cs ih => simpa [cutPrefix] using ih

theorem trimSuffix_of_suffix (suf t : List Char) : trimSuffix suf (t ++ suf) = t := by
  unfold trimSuffix
  rw [if_pos ⟨t, rfl⟩]
  simp

theorem gz_not_suffix_digits (n : Nat) : ¬(".gz".toList <:+ natDigits n) := by
  rintro ⟨t, ht⟩
  have hz : 'z' ∈ natDigits n := by
    rw [← ht]
    simp [String.toList]
  have := natDigits_all_digits n 'z' hz
  simp [isDigitCh] at this

theorem parsedRotIdx_mkRotName (base : List Char) (comp : Bool) (idx : Nat) :
    parsedRotIdx base (mkRotName base comp idx) = idx := by
  unfold parsedRotIdx mkRotName
  cases comp with
  | true =>
    have h : base ++ ['.'] ++ natDigits idx ++ (if true then ".gz".toList else []) =
        (base ++ ['.']) ++ (natDigits idx ++ ".gz".toList) := by simp
    rw [h, cutPrefix_append]
    show gconvInt (trimSuffix ".gz".toList (natDigits idx ++ ".gz".toList)) = idx
    rw [trimSuffix_of_suffix]
    exact gconvInt_natDigits idx
  | false =>
    have h : base ++ ['.'] ++ natDigits idx ++ (if false then ".gz".toList else []) =
        (base ++ ['.']) ++ natDigits idx := by simp
    rw [h, cutPrefix_append]
    show gconvInt (trimSuffix ".gz".toList (natDigits idx)) = idx
    unfold trimSuffix
    rw [if_neg (gz_not_suffix_digits idx)]
    exact gconvInt_natDigits idx

theorem maxRot_append (base : List Char) (files : List (List Char)) (g : List Char) :
    maxRotIndex base (files ++ [g]) = rotStep base (maxRotIndex base files) g := by
  unfold maxRotIndex
  rw [List.foldl_append]
  rfl

theorem acc_le_foldl_rotStep (base : List Char) (files : List (List Char)) :
    ∀ acc, acc ≤ files.foldl (rotStep base) acc := by
  induction files with
  | nil => intro acc; simp
  | cons g rest ih =>
    intro acc
    refine le_trans ?_ (ih (rotStep base acc g))
    unfold rotStep
    split
    · exact le_max_left _ _
    · exact le_refl _

theorem mem_le_foldl_rotStep (base : List Char) (files : List (List Char)) :
    ∀ acc f, f ∈ files → parsedRotIdx base f ≤ files.foldl (rotStep base) acc := by
  induction files with
  | nil => intro acc f hf; simp at hf
  | cons g rest ih =>
    intro acc f hf
    rw [List.mem_cons] at hf
    rcases hf with hf | hf
    · subst hf
      refine le_trans ?_ (acc_le_foldl_rotStep base rest (rotStep base acc f))
      unfold rotStep
      split
      · exact le_max_right _ _
      · omega
    · exact ih (rotStep base acc g) f hf

theorem mem_le_maxRot (base : List Char) (files : List (List Char)) (f : List Char)
    (hf : f ∈ files) : parsedRotIdx base f ≤ maxRotIndex base files :=
  mem_le_foldl_rotStep base files 0 f hf

theorem maxRot_zero (base : List Char) (D0 : List (List Char))
    (h0 : ∀ f ∈ D0, parsedRotIdx base f = 0) : maxRotIndex base D0 = 0 := by
  unfold maxRotIndex
  have key : ∀ (l : List (List Char)), (∀ f ∈ l, parsedRotIdx base f = 0) →
      ∀ acc, l.foldl (rotStep base) acc = acc := by
    intro l
    induction l with
    | nil => intro _ acc; rfl
    | cons g rest ih =>
      intro hl acc
      have hg : parsedRotIdx base g = 0 := hl g (by simp)
      have hstep : rotStep base acc g = acc := by
        unfold rotStep
        rw [hg]
        simp
      rw [List.foldl_cons, hstep]
      exact ih (fun f hf => hl f (List.mem_cons_of_mem _ hf)) acc
  exact key D0 h0 0

theorem rotateN_spec (base : List Char) (comp : Bool) (D0 : List (List Char))
    (h0 : ∀ f ∈ D0, parsedRotIdx base f = 0) (N : Nat) :
    maxRotIndex base (rotateN base comp D0 N) = N ∧
    (∀ f ∈ rotateN base comp D0 N, parsedRotIdx base f ≤ N) ∧
    (∀ i, 1 ≤ i → i ≤ N → ∃ f ∈ rotateN base comp D0 N, parsedRotIdx base f = i) := by
  induction N with
  | zero =>
    refine ⟨maxRot_zero base D0 h0, fun f hf => le_of_eq (h0 f hf), fun i h1 h2 => ?_⟩
    omega
  | succ N ih =>
    obtain ⟨ihMax, ihLe, ihEx⟩ := ih
    have hnew : parsedRotIdx base (mkRotName base comp (maxRotIndex base (rotateN base comp D0 N) + 1)) = N + 1 := by
      rw [ihMax]
      exact parsedRotIdx_mkRotName base comp (N + 1)
    refine ⟨?_, ?_, ?_⟩
    · show maxRotIndex base (rotateDir base comp (rotateN base comp D0 N)) = N + 1
      unfold rotateDir
      rw [maxRot_append]
      unfold rotStep
      rw [hnew, ihMax]
      simp
    · intro f hf
      rcases List.mem_append.mp hf with hf | hf
      · exact le_trans (ihLe f hf) (Nat.le_succ N)
      · rw [List.mem_singleton] at hf
        subst hf
        exact le_of_eq hnew
    · intro i h1 h2
      rcases Nat.lt_or_ge i (N + 1) with hlt | hge
      · obtain ⟨f, hf, hp⟩ := ihEx i h1 (by omega)
        exact ⟨f, List.mem_append.mpr (Or.inl hf), hp⟩
      · have hi : i = N + 1 := by omega
        subst hi
        exact ⟨_, List.mem_append.mpr (Or.inr (by simp)), hnew⟩

/-- C6: rotation computes `maxIndex` as the highest parsed sibling
index and moves the closed file to `maxIndex+1`: starting from a
directory with no matching rotated siblings, after `N` rotations the
rotated indices are exactly `1..N` with no gaps; in any directory the
index a rotation assigns strictly exceeds every parsed sibling index
(never reused), and rotation renames no existing sibling (never
renumbered). -/
theorem rotation_index_monotone (base : List Char) (comp : Bool)
    (D0 : List (List Char)) (N : Nat)
    (h0 : ∀ f ∈ D0, parsedRotIdx base f = 0) :
    (∀ i, 1 ≤ i →
      ((∃ f ∈ rotateN base comp D0 N, parsedRotIdx base f = i) ↔ i ≤ N)) ∧
    (∀ files : List (List Char), ∀ f ∈ files,
      parsedRotIdx base f < maxRotIndex base files + 1) ∧
    (∀ files : List (List Char), ∀ f ∈ files, f ∈ rotateDir base comp files) := by
  obtain ⟨hMax, hLe, hEx⟩ := rotateN_spec base comp D0 h0 N
  refine ⟨fun i h1 => ⟨fun ⟨f, hf, hp⟩ => hp ▸ hLe f hf, fun h2 => hEx i h1 h2⟩,
    fun files f hf => ?_, fun files f hf => List.mem_append.mpr (Or.inl hf)⟩
  have := mem_le_maxRot base files f hf
  omega

/-- Witness for `rotation_index_monotone`: two rotations of
`app.log` in an initially empty directory. -/
theorem rotation_index_monotone_witness :
    (∀ i, 1 ≤ i →
      ((∃ f ∈ rotateN "app.log".toList false [] 2, parsedRotIdx "app.log".toList f = i) ↔
        i ≤ 2)) ∧
    (∀ files : List (List Char), ∀ f ∈ files,
      parsedRotIdx "app.log".toList f < maxRotIndex "app.log".toList files + 1) ∧
    (∀ files : List (List Char), ∀ f ∈ files, f ∈ rotateDir "app.log".toList false files) :=
  rotation_index_monotone "app.log".toList false [] 2 (by simp)

/-! ## Resume cursor computation (`main.go:62-80`, `addNanosecond`)

`addNanosecond` (main.go:225-233) parses an RFC3339Nano timestamp with
the Go `time` library, adds one nanosecond and formats it back.  The
library collaborator is modelled at its interface for the timestamps
the log source produces (spec section 6): UTC timestamps
`YYYY-MM-DDTHH:MM:SS[.fffffffff]Z` with a period as decimal separator.
`time.Parse` validates the component ranges and rejects malformed
input; `Format(RFC3339Nano)` zero-pads the fields and trims trailing
zeros from the fractional second, omitting it entirely when zero;
adding a nanosecond carries through the calendar fields (Gregorian,
leap years, no leap seconds — Go's `time` uses none). -/

/-- Broken-down UTC time, as Go's `time.Time` presents it. -/
structure DateTime where
  year : Nat
  month : Nat
  day : Nat
  hour : Nat
  minute : Nat
  second : Nat
  nano : Nat
deriving DecidableEq, Repr

/-- Gregorian leap year. -/
def isLeap (y : Nat) : Bool := decide ((y % 4 = 0 ∧ y % 100 ≠ 0) ∨ y % 400 = 0)

/-- Days in a month. -/
def daysInMonth (y m : Nat) : Nat :=
  if m = 2 then (if isLeap y then 29 else 28)
  else if m = 4 ∨ m = 6 ∨ m = 9 ∨ m = 11 then 30
  else 31

/-- The component ranges Go's `time.Parse` accepts for an RFC3339
timestamp (year of at most four digits). -/
def validB (d : DateTime) : Bool :=
  decide (d.year ≤ 9999) && decide (1 ≤ d.month) && decide (d.month ≤ 12) &&
  decide (1 ≤ d.day) && decide (d.day ≤ daysInMonth d.year d.month) &&
  decide (d.hour ≤ 23) && decide (d.minute ≤ 59) && decide (d.second ≤ 59) &&
  decide (d.nano ≤ 999999999)

/-- `t.Add(1 * time.Nanosecond)` on the broken-down fields: increment
the nanosecond and carry through second, minute, hour, day, month and
year. -/
def succDT (d : DateTime) : DateTime :=
  if d.nano < 999999999 then { d with nano := d.nano + 1 }
  else if d.second < 59 then { d with nano := 0, second := d.second + 1 }
  else if d.minute < 59 then { d with nano := 0, second := 0, minute := d.minute + 1 }
  else if d.hour < 23 then { d with nano := 0, second := 0, minute := 0, hour := d.hour + 1 }
  else if d.day < daysInMonth d.year d.month then { d with nano := 0, second := 0, minute := 0, hour := 0, day := d.day + 1 }
  else if d.month < 12 then { d with nano := 0, second := 0, minute := 0, hour := 0, day := 1, month := d.month + 1 }
  else { d with nano := 0, second := 0, minute := 0, hour := 0, day := 1, month := 1, year := d.year + 1 }

/-- Instant denoted by a broken-down time, as a single number that is
strictly monotone in the lexicographic field order for in-range
fields: the log source's "at or after" comparison is taken over this
key. -/
def dtKey (d : DateTime) : Nat :=
  (((((d.year * 13 + d.month) * 32 + d.day) * 24 + d.hour) * 60 + d.minute) * 60 +
    d.second) * 1000000000 + d.nano

theorem daysInMonth_le (y m : Nat) : daysInMonth y m ≤ 31 := by
  unfold daysInMonth
  split
  · split <;> omega
  · split <;> omega

theorem daysInMonth_pos (y m : Nat) : 1 ≤ daysInMonth y m := by
  unfold daysInMonth
  split
  · split <;> omega
  · split <;> omega

theorem validB_bounds (d : DateTime) (h : validB d = true) :
    d.year ≤ 9999 ∧ 1 ≤ d.month ∧ d.month ≤ 12 ∧ 1 ≤ d.day ∧
    d.day ≤ daysInMonth d.year d.month ∧ d.hour ≤ 23 ∧ d.minute ≤ 59 ∧
    d.second ≤ 59 ∧ d.nano ≤ 999999999 := by
  unfold validB at h
  simp only [Bool.and_eq_true, decide_eq_true_eq] at h
  tauto

/-- Advancing one nanosecond moves the instant strictly later. -/
theorem dtKey_lt_succ (d : DateTime) (hv : validB d = true) :
    dtKey d < dtKey (succDT d) := by
  obtain ⟨h1, h2, h3, h4, h5, h6, h7, h8, h9⟩ := validB_bounds d hv
  have hdim := daysInMonth_le d.year d.month
  unfold succDT
  split_ifs with c1 c2 c3 c4 c5 c6 <;> simp only [dtKey] <;> omega

/-- Fixed-width zero-padded decimal rendering (most significant digit
first), as Go's stdZeroBasedPad formatting emits. -/
def padDigits : Nat → Nat → List Char
  | 0, _ => []
  | k + 1, n => digitChar ((n / 10 ^ k) % 10) :: padDigits k n

/-- Trailing-zero trimming of the fractional second
(`time.RFC3339Nano` uses the trailing-zero-removing `9`s verbs). -/
def trimZeros (l : List Char) : List Char :=
  (l.reverse.dropWhile (fun c => c = '0')).reverse

/-- `t.Format(time.RFC3339Nano)` for a UTC time: zero-padded fields,
the fractional second trimmed of trailing zeros and omitted when zero,
and the `Z` offset. -/
def formatDT (d : DateTime) : List Char :=
  padDigits 4 d.year ++ ('-' :: (padDigits 2 d.month ++ ('-' :: (padDigits 2 d.day ++
    ('T' :: (padDigits 2 d.hour ++ (':' :: (padDigits 2 d.minute ++ (':' ::
    (padDigits 2 d.second ++
      ((if d.nano = 0 then [] else '.' :: trimZeros (padDigits 9 d.nano)) ++ ['Z'])))))))))))

/-- Read exactly `k` digits, extending the accumulator. -/
def readFixed : Nat → List Char → Nat → Option (Nat × List Char)
  | 0, cs, acc => some (acc, cs)
  | _ + 1, [], _ => none
  | k + 1, c :: cs, acc =>
    if isDigitCh c then readFixed k cs (acc * 10 + (c.toNat - 48)) else none

/-- Consume one expected character. -/
def expectCh (ch : Char) : List Char → Option (List Char)
  | [] => none
  | c :: cs => if c = ch then some cs else none

/-- Split off the leading run of digits. -/
def takeDigits : List Char → List Char × List Char
  | [] => ([], [])
  | c :: cs =>
    if isDigitCh c then (c :: (takeDigits cs).1, (takeDigits cs).2)
    else ([], c :: cs)

/-- Parse an optional fractional second of 1 to 9 digits introduced by
a period, scaled to nanoseconds. -/
def parseFrac : List Char → Option (Nat × List Char)
  | '.' :: rest =>
    if (takeDigits rest).1.length = 0 ∨ 9 < (takeDigits rest).1.length then none
    else some (charsToNat (takeDigits rest).1 * 10 ^ (9 - (takeDigits rest).1.length),
      (takeDigits rest).2)
  | cs => some (0, cs)

/-- `time.Parse(time.RFC3339Nano, s)` for UTC inputs: fixed-width
dashed date, `T`, colon-separated time, optional fraction, `Z`, end of
input, with Go's range validation of every component. -/
def parseDT (cs : List Char) : Option DateTime := do
  let (y, cs) ← readFixed 4 cs 0
  let cs ← expectCh '-' cs
  let (mo, cs) ← readFixed 2 cs 0
  let cs ← expectCh '-' cs
  let (da, cs) ← readFixed 2 cs 0
  let cs ← expectCh 'T' cs
  let (h, cs) ← readFixed 2 cs 0
  let cs ← expectCh ':' cs
  let (mi, cs) ← readFixed 2 cs 0
  let cs ← expectCh ':' cs
  let (se, cs) ← readFixed 2 cs 0
  let (na, cs) ← parseFrac cs
  let cs ← expectCh 'Z' cs
  if cs = [] ∧ validB (DateTime.mk y mo da h mi se na) = true then
    some (DateTime.mk y mo da h mi se na)
  else none

theorem mod_ten_pow_succ (n k : Nat) :
    n % 10 ^ (k + 1) = 10 ^ k * (n / 10 ^ k % 10) + n % 10 ^ k := by
  rw [pow_succ]
  have h1 := Nat.div_add_mod (n % (10 ^ k * 10)) (10 ^ k)
  rw [Nat.mod_mul_right_div_self, Nat.mod_mod_of_dvd n ⟨10, rfl⟩] at h1
  exact h1.symm

theorem digitChar_sub (x : Nat) (h : x < 10) : (digitChar x).toNat - 48 = x := by
  rw [digitChar_toNat x h]
  omega

theorem readFixed_padDigits (k : Nat) :
    ∀ n acc rest, readFixed k (padDigits k n ++ rest) acc =
      some (acc * 10 ^ k + n % 10 ^ k, rest) := by
  induction k with
  | zero =>
    intro n acc rest
    simp [padDigits, readFixed, Nat.mod_one]
  | succ k ih =>
    intro n acc rest
    have hd : n / 10 ^ k % 10 < 10 := Nat.mod_lt _ (by omega)
    show readFixed (k + 1) (digitChar (n / 10 ^ k % 10) :: (padDigits k n ++ rest)) acc = _
    unfold readFixed
    rw [if_pos (isDigitCh_digitChar _ hd), digitChar_sub _ hd, ih n]
    have harith : (acc * 10 + n / 10 ^ k % 10) * 10 ^ k + n % 10 ^ k =
        acc * 10 ^ (k + 1) + n % 10 ^ (k + 1) := by
      rw [mod_ten_pow_succ, pow_succ]
      ring
    rw [harith]

theorem expectCh_cons (ch : Char) (rest : List Char) :
    expectCh ch (ch :: rest) = some rest := by
  simp [expectCh]

theorem padDigits_length (k n : Nat) : (padDigits k n).length = k := by
  induction k generalizing n with
  | zero => rfl
  | succ k ih => simp [padDigits, ih]

theorem padDigits_all_digits (k n : Nat) :
    ∀ c ∈ padDigits k n, isDigitCh c = true := by
  induction k generalizing n with
  | zero => intro c hc; simp [padDigits] at hc
  | succ k ih =>
    intro c hc
    rw [padDigits, List.mem_cons] at hc
    rcases hc with hc | hc
    · subst hc
      exact isDigitCh_digitChar _ (Nat.mod_lt _ (by omega))
    · exact ih n c hc

theorem charsToNat_general (s : List Char) :
    ∀ acc, s.foldl (fun a c => a * 10 + (c.toNat - 48)) acc =
      acc * 10 ^ s.length + charsToNat s := by
  induction s with
  | nil => intro acc; simp [charsToNat]
  | cons c cs ih =>
    intro acc
    show cs.foldl _ (acc * 10 + (c.toNat - 48)) = _
    rw [ih]
    have hcn : charsToNat (c :: cs) = (c.toNat - 48) * 10 ^ cs.length + charsToNat cs := by
      show cs.foldl _ (0 * 10 + (c.toNat - 48)) = _
      rw [ih]
      ring_nf
    rw [hcn]
    simp [List.length_cons, pow_succ]
    ring

theorem charsToNat_padDigits (k : Nat) :
    ∀ n, charsToNat (padDigits k n) = n % 10 ^ k := by
  induction k with
  | zero => intro n; simp [padDigits, charsToNat, Nat.mod_one]
  | succ k ih =>
    intro n
    have hd : n / 10 ^ k % 10 < 10 := Nat.mod_lt _ (by omega)
    show charsToNat (digitChar (n / 10 ^ k % 10) :: padDigits k n) = _
    have h1 : charsToNat (digitChar (n / 10 ^ k % 10) :: padDigits k n) =
        ((digitChar (n / 10 ^ k % 10)).toNat - 48) * 10 ^ (padDigits k n).length +
          charsToNat (padDigits k n) := by
      show (padDigits k n).foldl _ (0 * 10 + _) = _
      rw [charsToNat_general]
      ring_nf
    rw [h1, digitChar_sub _ hd, padDigits_length, ih, mod_ten_pow_succ]
    ring

theorem charsToNat_append_zeros (t : List Char) (m : Nat) :
    charsToNat (t ++ List.replicate m '0') = charsToNat t * 10 ^ m := by
  induction m with
  | zero => simp
  | succ m ih =>
    rw [List.replicate_succ', ← List.append_assoc, charsToNat_append_digit, ih, pow_succ]
    have hz : ('0' : Char).toNat - 48 = 0 := by decide
    rw [hz]
    ring

/-- Decompose a digit string into its trailing-zero-trimmed prefix and
the zeros. -/
theorem trimZeros_decomp (l : List Char) :
    l = trimZeros l ++ List.replicate (l.length - (trimZeros l).length) '0' := by
  unfold trimZeros
  conv_lhs => rw [← List.reverse_reverse l, ← List.takeWhile_append_dropWhile (fun c => decide (c = '0')) l.reverse]
  rw [List.reverse_append]
  congr 1
  have hall : ∀ c ∈ l.reverse.takeWhile (fun c => decide (c = '0')), c = '0' := by
    intro c hc
    have := List.mem_takeWhile_imp hc
    simpa using this
  rw [List.eq_replicate_of_mem hall]
  simp only [List.reverse_replicate, List.length_reverse, List.length_replicate]
  congr 1
  have h1 : l.length = (l.reverse.takeWhile (fun c => decide (c = '0'))).length +
      (l.reverse.dropWhile (fun c => decide (c = '0'))).length := by
    rw [← List.length_append, List.takeWhile_append_dropWhile, List.length_reverse]
  omega

theorem trimZeros_length_le (l : List Char) : (trimZeros l).length ≤ l.length := by
  unfold trimZeros
  rw [List.length_reverse]
  have := (List.dropWhile_sublist (fun c => decide (c = '0')) (l := l.reverse)).length_le
  simpa using this

theorem trimZeros_mem (l : List Char) (c : Char) (hc : c ∈ trimZeros l) : c ∈ l := by
  unfold trimZeros at hc
  rw [List.mem_reverse] at hc
  have := (List.dropWhile_sublist (fun c => decide (c = '0'))).mem hc
  rwa [List.mem_reverse] at this

theorem trimZeros_pad9 (n : Nat) (h : n ≤ 999999999) (hpos : 0 < n) :
    charsToNat (trimZeros (padDigits 9 n)) *
        10 ^ (9 - (trimZeros (padDigits 9 n)).length) = n ∧
    1 ≤ (trimZeros (padDigits 9 n)).length ∧
    (trimZeros (padDigits 9 n)).length ≤ 9 := by
  have hlen : (trimZeros (padDigits 9 n)).length ≤ 9 := by
    have := trimZeros_length_le (padDigits 9 n)
    rwa [padDigits_length] at this
  have hdec := trimZeros_decomp (padDigits 9 n)
  rw [padDigits_length] at hdec
  have hval : charsToNat (padDigits 9 n) = n := by
    rw [charsToNat_padDigits]
    exact Nat.mod_eq_of_lt (by omega)
  have hmain : charsToNat (trimZeros (padDigits 9 n)) *
      10 ^ (9 - (trimZeros (padDigits 9 n)).length) = n := by
    conv_rhs => rw [← hval, hdec, charsToNat_append_zeros]
  refine ⟨hmain, ?_, hlen⟩
  by_contra hne
  have h0 : (trimZeros (padDigits 9 n)).length = 0 := by omega
  rw [List.length_eq_zero.mp h0] at hmain
  simp [charsToNat] at hmain
  omega

theorem takeDigits_append (ds : List Char) (hds : ∀ c ∈ ds, isDigitCh c = true)
    (z : Char) (hz : isDigitCh z = false) (tail : List Char) :
    takeDigits (ds ++ z :: tail) = (ds, z :: tail) := by
  induction ds with
  | nil =>
    show takeDigits (z :: tail) = ([], z :: tail)
    unfold takeDigits
    rw [if_neg (by simp [hz])]
  | cons c cs ih =>
    show takeDigits (c :: (cs ++ z :: tail)) = (c :: cs, z :: tail)
    unfold takeDigits
    rw [if_pos (hds c (by simp)), ih (fun x hx => hds x (List.mem_cons_of_mem _ hx))]

theorem parseFrac_format (n : Nat) (h : n ≤ 999999999) :
    parseFrac ((if n = 0 then [] else '.' :: trimZeros (padDigits 9 n)) ++ ['Z']) =
      some (n, ['Z']) := by
  by_cases h0 : n = 0
  · subst h0
    rw [if_pos rfl]
    rfl
  · rw [if_neg h0]
    obtain ⟨hval, hlen1, hlen9⟩ := trimZeros_pad9 n h (by omega)
    have hall : ∀ c ∈ trimZeros (padDigits 9 n), isDigitCh c = true :=
      fun c hc => padDigits_all_digits 9 n c (trimZeros_mem _ c hc)
    show parseFrac ('.' :: (trimZeros (padDigits 9 n) ++ 'Z' :: [])) = some (n, ['Z'])
    simp only [parseFrac]
    simp only [takeDigits_append _ hall 'Z' (by decide) []]
    have hcond : ¬((trimZeros (padDigits 9 n)).length = 0 ∨
        9 < (trimZeros (padDigits 9 n)).length) := by omega
    rw [if_neg hcond, hval]

/-- Round trip: parsing a formatted valid UTC timestamp returns the
same broken-down time. -/
theorem parseDT_formatDT (d : DateTime) (hv : validB d = true) :
    parseDT (formatDT d) = some d := by
  obtain ⟨h1, h2, h3, h4, h5, h6, h7, h8, h9⟩ := validB_bounds d hv
  have hdim := daysInMonth_le d.year d.month
  have hy : d.year % 10 ^ 4 = d.year := Nat.mod_eq_of_lt (by omega)
  have hmo : d.month % 10 ^ 2 = d.month := Nat.mod_eq_of_lt (by omega)
  have hda : d.day % 10 ^ 2 = d.day := Nat.mod_eq_of_lt (by omega)
  have hh : d.hour % 10 ^ 2 = d.hour := Nat.mod_eq_of_lt (by omega)
  have hmi : d.minute % 10 ^ 2 = d.minute := Nat.mod_eq_of_lt (by omega)
  have hse : d.second % 10 ^ 2 = d.second := Nat.mod_eq_of_lt (by omega)
  have hfrac := parseFrac_format d.nano h9
  simp only [parseDT, formatDT, Option.bind_eq_bind, readFixed_padDigits, expectCh_cons,
    hfrac, Option.some_bind, hy, hmo, hda, hh, hmi, hse, Nat.zero_mul, Nat.zero_add]
  rw [if_pos ⟨trivial, hv⟩]

/-- Parsed timestamps are range-valid. -/
theorem parseDT_valid (cs : List Char) (d : DateTime) (h : parseDT cs = some d) :
    validB d = true := by
  simp only [parseDT, Option.bind_eq_bind, Option.bind_eq_some] at h
  obtain ⟨⟨y, c1⟩, -, c2, -, ⟨mo, c3⟩, -, c4, -, ⟨da, c5⟩, -, c6, -, ⟨ho, c7⟩, -, c8, -, ⟨mi, c9⟩, -, c10, -, ⟨se, c11⟩, -, ⟨na, c12⟩, -, c13, -, hfin⟩ := h
  split at hfin
  · next hcond =>
    injection hfin with he
    rw [← he]
    exact hcond.2
  · exact absurd hfin (by simp)

theorem formatDT_ne_nil (d : DateTime) : formatDT d ≠ [] := by
  simp [formatDT, padDigits]

/-- The timestamp token of the last line: `strings.Split(lastLine, " ")`
then `parts[0]` (main.go:70-72) is the prefix before the first
space. -/
def firstSpaceToken (s : List Char) : List Char :=
  s.takeWhile (fun c => !decide (c = ' '))

/-- `addNanosecond` (main.go:225-233): parse the RFC3339Nano timestamp,
add one nanosecond, format it back; a parse failure is reported to the
caller. -/
def addNanosecondM (ts : List Char) : Option (List Char) :=
  match parseDT ts with
  | none => none
  | some d => some (formatDT (succDT d))

/-- The `since` computation of `handleWithContext` (main.go:68-80): the
empty last line leaves the cursor unset (empty); otherwise the first
space-delimited token is advanced by one nanosecond, falling back to
the raw token verbatim when parsing fails. -/
def computeSince (lastLine : List Char) : List Char :=
  if lastLine = [] then []
  else
    match addNanosecondM (firstSpaceToken lastLine) with
    | some s => s
    | none => firstSpaceToken lastLine

/-- Modelled from the spec: the log-streaming collaborator
(`ContainerLogs` with `Since`, spec section 6) returns only the entries
whose timestamp is at or after the given instant — the comparison is
inclusive — and an empty `Since` disables the filter. -/
def streamSince (since : List Char) (entries : List (DateTime × List Char)) :
    List (DateTime × List Char) :=
  if since = [] then entries
  else
    match parseDT since with
    | none => entries
    | some c => entries.filter (fun e => decide (dtKey c ≤ dtKey e.1))

/-- C4: for a last line whose leading token parses as an RFC3339Nano
timestamp `d`, the computed resume cursor is the formatted `d` plus one
nanosecond — it parses back to exactly `succDT d`, which denotes a
strictly later instant, so the inclusive `since` filter of the log
source never re-yields an entry carrying the persisted last line's
timestamp; when the token does not parse the raw token is used
verbatim; when there is no last line the cursor is unset. -/
theorem resume_cursor_strictly_later (lastLine : List Char) (d : DateTime)
    (entries : List (DateTime × List Char))
    (hne : lastLine ≠ [])
    (hparse : parseDT (firstSpaceToken lastLine) = some d)
    (hvs : validB (succDT d) = true) :
    computeSince lastLine = formatDT (succDT d) ∧
    parseDT (computeSince lastLine) = some (succDT d) ∧
    dtKey d < dtKey (succDT d) ∧
    (∀ e ∈ streamSince (computeSince lastLine) entries, e.1 ≠ d) ∧
    (∀ l2 : List Char, l2 ≠ [] → parseDT (firstSpaceToken l2) = none →
      computeSince l2 = firstSpaceToken l2) ∧
    computeSince [] = [] := by
  have hv : validB d = true := parseDT_valid _ _ hparse
  have hcs : computeSince lastLine = formatDT (succDT d) := by
    unfold computeSince addNanosecondM
    rw [if_neg hne, hparse]
  have hround : parseDT (formatDT (succDT d)) = some (succDT d) := parseDT_formatDT _ hvs
  have hlt : dtKey d < dtKey (succDT d) := dtKey_lt_succ d hv
  have hs : streamSince (formatDT (succDT d)) entries =
      entries.filter (fun e => decide (dtKey (succDT d) ≤ dtKey e.1)) := by
    unfold streamSince
    rw [if_neg (formatDT_ne_nil _), hround]
  refine ⟨hcs, by rw [hcs]; exact hround, hlt, ?_, ?_, rfl⟩
  · intro e he
    rw [hcs, hs, List.mem_filter] at he
    intro hed
    have h2 := he.2
    rw [hed] at h2
    simp only [decide_eq_true_eq] at h2
    omega
  · intro l2 h2 hp2
    unfold computeSince addNanosecondM
    rw [if_neg h2, hp2]

set_option maxRecDepth 4000

/-- Witness for `resume_cursor_strictly_later` at the spec's example
last line. -/
theorem resume_cursor_strictly_later_witness :
    computeSince "2024-01-01T10:00:00.000000000Z hello".toList =
      formatDT (succDT (DateTime.mk 2024 1 1 10 0 0 0)) ∧
    parseDT (computeSince "2024-01-01T10:00:00.000000000Z hello".toList) =
      some (succDT (DateTime.mk 2024 1 1 10 0 0 0)) ∧
    dtKey (DateTime.mk 2024 1 1 10 0 0 0) < dtKey (succDT (DateTime.mk 2024 1 1 10 0 0 0)) ∧
    (∀ e ∈ streamSince (computeSince "2024-01-01T10:00:00.000000000Z hello".toList)
        [(DateTime.mk 2024 1 1 10 0 0 0, "hello".toList)],
      e.1 ≠ DateTime.mk 2024 1 1 10 0 0 0) ∧
    (∀ l2 : List Char, l2 ≠ [] → parseDT (firstSpaceToken l2) = none →
      computeSince l2 = firstSpaceToken l2) ∧
    computeSince [] = [] :=
  resume_cursor_strictly_later "2024-01-01T10:00:00.000000000Z hello".toList
    (DateTime.mk 2024 1 1 10 0 0 0)
    [(DateTime.mk 2024 1 1 10 0 0 0, "hello".toList)]
    (by decide) (by decide) (by decide)
